import Mathlib

/-!
Verification development for the domain-consolidation engine of
`src/utils.py` (class `App`): the line normalizer (`convert_domains`),
the consolidation step (`convert_to_domain_list`), the subdomain
redundancy reducer (`remove_subdomains`), the chunker (`chunk_list`)
and the reconciliation logic of `App.run` against the remote
list/policy store.

Text is embedded as `List Char` so that the Python string operations
(`split`, `join`, `lower`, `strip`, ...) can be modelled character by
character.  Sets of domains are `Finset (List Char)`; the remote store
is a small explicit state, and `App.run` becomes a pure function from
the computed domain list and a store state to an outcome together with
the trace of mutation requests it issues.
-/

set_option maxHeartbeats 1000000

/-- A text line (or a domain) as its list of characters. -/
abbrev Line : Type := List Char

/-- Python `s.split(sep)` for a one-character separator: prepend a
character to the first piece of an already split tail. -/
def consHead (c : Char) : List Line → List Line
  | [] => [[c]]
  | l :: ls => (c :: l) :: ls

/-- Python `s.split(sep)` for a one-character separator `sep`:
`"a.b".split "." = ["a", "b"]`, `"".split "." = [""]`. -/
def splitOnChar (sep : Char) : Line → List Line
  | [] => [[]]
  | c :: cs =>
    if c = sep then [] :: splitOnChar sep cs
    else consHead c (splitOnChar sep cs)

/-- Python `".".join(parts)`. -/
def joinDots : List Line → Line
  | [] => []
  | [l] => l
  | l :: l2 :: ls => l ++ '.' :: joinDots (l2 :: ls)

/-- `domain.split(".")` of `remove_subdomains`: the labels of a domain. -/
def splitDots (d : Line) : List Line :=
  splitOnChar '.' d

/-- The strict ancestors tested by `remove_subdomains`
(`".".join(parts[i:])` for `i in range(1, len(parts))`), outermost
first. -/
def ancestors (d : Line) : List Line :=
  (List.range' 1 ((splitDots d).length - 1)).map
    (fun i => joinDots ((splitDots d).drop i))

/-- The `subdomains` set built by the first loop of
`remove_subdomains`: the members of the input with more than one
label. -/
def subdomainPart (S : Finset Line) : Finset Line :=
  S.filter (fun d => (splitDots d).length ≠ 1)

/-- `App.remove_subdomains` (src/utils.py:152-177): single-label
domains are kept, and a multi-label domain is kept exactly when none
of its strict ancestors lies in the multi-label subset of the
input. -/
def removeSubdomains (S : Finset Line) : Finset Line :=
  S.filter (fun d => (splitDots d).length = 1) ∪
    (subdomainPart S).filter (fun d => ∀ a ∈ ancestors d, a ∉ subdomainPart S)

/-- `App.chunk_list` (src/utils.py:179-181): successive slices
`_list[i : i + n]` for `i = 0, n, 2n, ...`.  (For `n = 0` Python's
`range` rejects the step; the value here is arbitrary and the theorems
assume `0 < n`.) -/
def chunkList {α : Type} (l : List α) (n : Nat) : List (List α) :=
  match l, n with
  | [], _ => []
  | _, 0 => []
  | a :: t, m + 1 => (a :: t).take (m + 1) :: chunkList ((a :: t).drop (m + 1)) (m + 1)
termination_by l.length
decreasing_by
  simp only [List.length_drop, List.length_cons]
  omega

/-! ### Properties of `splitOnChar` and `joinDots` -/

lemma consHead_ne_nil (c : Char) (ls : List Line) : consHead c ls ≠ [] := by
  cases ls <;> simp [consHead]

lemma splitOnChar_ne_nil (sep : Char) (s : Line) : splitOnChar sep s ≠ [] := by
  cases s with
  | nil => simp [splitOnChar]
  | cons c cs =>
    simp only [splitOnChar]
    split
    · simp
    · exact consHead_ne_nil _ _

lemma splitDots_length_pos (d : Line) : 0 < (splitDots d).length :=
  List.length_pos.mpr (splitOnChar_ne_nil '.' d)

lemma sep_not_mem_of_mem_splitOnChar {sep : Char} {s l : Line}
    (hl : l ∈ splitOnChar sep s) : sep ∉ l := by
  induction s generalizing l with
  | nil =>
    simp only [splitOnChar, List.mem_singleton] at hl
    simp [hl]
  | cons c cs ih =>
    simp only [splitOnChar] at hl
    by_cases hc : c = sep
    · simp only [if_pos hc, List.mem_cons] at hl
      rcases hl with rfl | hl
      · simp
      · exact ih hl
    · simp only [if_neg hc] at hl
      cases hrec : splitOnChar sep cs with
      | nil => exact absurd hrec (splitOnChar_ne_nil sep cs)
      | cons r rs =>
        rw [hrec] at hl
        simp only [consHead, List.mem_cons] at hl
        rcases hl with rfl | hl
        · have hr : sep ∉ r := ih (by rw [hrec]; exact List.mem_cons_self r rs)
          simp only [List.mem_cons, not_or]
          exact ⟨fun h => hc h.symm, hr⟩
        · exact ih (by rw [hrec]; exact List.mem_cons_of_mem r hl)

lemma splitOnChar_of_not_mem {sep : Char} {l : Line} (hl : sep ∉ l) :
    splitOnChar sep l = [l] := by
  induction l with
  | nil => simp [splitOnChar]
  | cons c cs ih =>
    simp only [List.mem_cons, not_or] at hl
    have hrec := ih hl.2
    have hcs : ¬c = sep := fun h => hl.1 h.symm
    simp [splitOnChar, hcs, hrec, consHead]

lemma splitOnChar_append_sep {sep : Char} {l : Line} (hl : sep ∉ l) (t : Line) :
    splitOnChar sep (l ++ sep :: t) = l :: splitOnChar sep t := by
  induction l with
  | nil => simp [splitOnChar]
  | cons c cs ih =>
    simp only [List.mem_cons, not_or] at hl
    have hrec := ih hl.2
    have hcs : ¬c = sep := fun h => hl.1 h.symm
    simp [splitOnChar, hcs, hrec, consHead]

lemma splitDots_joinDots : ∀ {ls : List Line}, ls ≠ [] →
    (∀ l ∈ ls, '.' ∉ l) → splitDots (joinDots ls) = ls
  | [], h, _ => absurd rfl h
  | [l], _, hdot => by
    simp only [joinDots, splitDots]
    exact splitOnChar_of_not_mem (hdot l (List.mem_singleton_self l))
  | l :: l2 :: ls, _, hdot => by
    have hl : '.' ∉ l := hdot l (List.mem_cons_self _ _)
    have ih := @splitDots_joinDots (l2 :: ls) (List.cons_ne_nil _ _)
      (fun x hx => hdot x (List.mem_cons_of_mem _ hx))
    simp only [joinDots, splitDots] at ih ⊢
    rw [splitOnChar_append_sep hl, ih]

/-! ### Properties of `ancestors` -/

lemma mem_ancestors_iff {a d : Line} :
    a ∈ ancestors d ↔
      ∃ i, 1 ≤ i ∧ i < (splitDots d).length ∧ a = joinDots ((splitDots d).drop i) := by
  have hpos := splitDots_length_pos d
  simp only [ancestors, List.mem_map, List.mem_range'_1]
  constructor
  · rintro ⟨i, ⟨h1, h2⟩, rfl⟩
    exact ⟨i, h1, by omega, rfl⟩
  · rintro ⟨i, h1, h2, rfl⟩
    exact ⟨i, ⟨h1, by omega⟩, rfl⟩

lemma splitDots_of_mem_ancestors {a d : Line} (h : a ∈ ancestors d) :
    ∃ i, 1 ≤ i ∧ i < (splitDots d).length ∧ splitDots a = (splitDots d).drop i := by
  rcases mem_ancestors_iff.mp h with ⟨i, h1, h2, rfl⟩
  refine ⟨i, h1, h2, ?_⟩
  apply splitDots_joinDots
  · have : ((splitDots d).drop i).length = (splitDots d).length - i := by
      simp [List.length_drop]
    intro hnil
    rw [hnil] at this
    simp at this
    omega
  · intro l hl
    exact sep_not_mem_of_mem_splitOnChar (List.mem_of_mem_drop hl)

lemma length_lt_of_mem_ancestors {a d : Line} (h : a ∈ ancestors d) :
    (splitDots a).length < (splitDots d).length := by
  rcases splitDots_of_mem_ancestors h with ⟨i, h1, h2, heq⟩
  rw [heq, List.length_drop]
  omega

lemma ancestors_trans {b a d : Line} (hb : b ∈ ancestors a) (ha : a ∈ ancestors d) :
    b ∈ ancestors d := by
  rcases splitDots_of_mem_ancestors ha with ⟨i, hi1, hi2, hia⟩
  rcases mem_ancestors_iff.mp hb with ⟨j, hj1, hj2, rfl⟩
  rw [hia] at hj2 ⊢
  rw [List.length_drop] at hj2
  rw [List.drop_drop]
  exact mem_ancestors_iff.mpr ⟨i + j, by omega, by omega, rfl⟩

lemma ancestors_of_single {d : Line} (h : (splitDots d).length = 1) :
    ancestors d = [] := by
  simp [ancestors, h]

/-! ### Properties of `removeSubdomains` -/

lemma mem_subdomainPart {S : Finset Line} {d : Line} :
    d ∈ subdomainPart S ↔ d ∈ S ∧ (splitDots d).length ≠ 1 := by
  simp [subdomainPart]

lemma mem_removeSubdomains_iff {S : Finset Line} {d : Line} :
    d ∈ removeSubdomains S ↔
      d ∈ S ∧ ((splitDots d).length = 1 ∨
        ((splitDots d).length ≠ 1 ∧ ∀ a ∈ ancestors d, a ∉ subdomainPart S)) := by
  simp only [removeSubdomains, Finset.mem_union, Finset.mem_filter, mem_subdomainPart]
  tauto

lemma removeSubdomains_subset (S : Finset Line) : removeSubdomains S ⊆ S :=
  fun _ hd => (mem_removeSubdomains_iff.mp hd).1

lemma coverage_aux (S : Finset Line) :
    ∀ n d, d ∈ subdomainPart S → (splitDots d).length ≤ n →
      d ∈ removeSubdomains S ∨ ∃ a ∈ ancestors d, a ∈ removeSubdomains S := by
  intro n
  induction n with
  | zero =>
    intro d _ hlen
    have := splitDots_length_pos d
    omega
  | succ n ih =>
    intro d hd hlen
    by_cases hall : ∀ a ∈ ancestors d, a ∉ subdomainPart S
    · left
      exact mem_removeSubdomains_iff.mpr
        ⟨(mem_subdomainPart.mp hd).1, Or.inr ⟨(mem_subdomainPart.mp hd).2, hall⟩⟩
    · push_neg at hall
      rcases hall with ⟨a, haanc, haS⟩
      have hlt := length_lt_of_mem_ancestors haanc
      rcases ih a haS (by omega) with h | ⟨b, hbanc, hbout⟩
      · exact Or.inr ⟨a, haanc, h⟩
      · exact Or.inr ⟨b, ancestors_trans hbanc haanc, hbout⟩

/-- C1: counterexample to the claim as stated.  On the input set
containing the single-label domain `example` together with its
subdomain `ads.example`, `remove_subdomains` keeps both: the output
contains `ads.example`, a strict dot-boundary sub-domain of the input
(and output) member `example`, because the reducer tests ancestors
only against the multi-label subset. -/
theorem removeSubdomains_single_label_cex :
    "example".data ∈ ({"example".data, "ads.example".data} : Finset Line) ∧
    "ads.example".data ∈ removeSubdomains {"example".data, "ads.example".data} ∧
    "example".data ∈ removeSubdomains {"example".data, "ads.example".data} ∧
    "example".data ∈ ancestors "ads.example".data := by
  decide

/-- C1 (amended): no domain kept by `remove_subdomains` has a strict
multi-label ancestor (dot-boundary suffix consisting of at least two
labels) in the input set; in particular no output domain is a strict
dot-boundary suffix of another output domain unless the suffix is
single-label. -/
theorem removeSubdomains_no_multilabel_ancestor (S : Finset Line) (d a : Line)
    (hd : d ∈ removeSubdomains S) (ha : a ∈ ancestors d)
    (hml : (splitDots a).length ≠ 1) : a ∉ S := by
  intro haS
  rcases mem_removeSubdomains_iff.mp hd with ⟨_, h1 | ⟨_, hall⟩⟩
  · rw [ancestors_of_single h1] at ha
    exact absurd ha (List.not_mem_nil a)
  · exact hall a ha (mem_subdomainPart.mpr ⟨haS, hml⟩)

/-- Witness for the amended C1 at a concrete input: `a.b.c` is kept,
its multi-label ancestor `b.c` is hence not in the input set. -/
theorem removeSubdomains_no_multilabel_ancestor_witness :
    "b.c".data ∉ ({"a.b.c".data} : Finset Line) :=
  removeSubdomains_no_multilabel_ancestor {"a.b.c".data} "a.b.c".data "b.c".data
    (by decide) (by decide) (by decide)

/-- C3: every domain of the reducer's input is either itself kept or
has a strict ancestor (dot-boundary suffix) that is kept. -/
theorem removeSubdomains_coverage (S : Finset Line) (d : Line) (hd : d ∈ S) :
    d ∈ removeSubdomains S ∨ ∃ a ∈ ancestors d, a ∈ removeSubdomains S := by
  by_cases h1 : (splitDots d).length = 1
  · exact Or.inl (mem_removeSubdomains_iff.mpr ⟨hd, Or.inl h1⟩)
  · exact coverage_aux S (splitDots d).length d (mem_subdomainPart.mpr ⟨hd, h1⟩) le_rfl

/-- Witness for C3 at a concrete input: `x.a.b` is dropped in favour
of its kept ancestor `a.b`. -/
theorem removeSubdomains_coverage_witness :
    "x.a.b".data ∈ removeSubdomains {"x.a.b".data, "a.b".data} ∨
      ∃ a ∈ ancestors "x.a.b".data,
        a ∈ removeSubdomains {"x.a.b".data, "a.b".data} :=
  removeSubdomains_coverage {"x.a.b".data, "a.b".data} "x.a.b".data (by decide)

/-! ### The combination step of `convert_to_domain_list` -/

/-- The final combination of `convert_to_domain_list`
(src/utils.py:131): `sorted(list(filtered_domains - white_domains))`;
Python's `sorted` on strings is the ascending lexicographic order by
code point, which is the `List Char` linear order. -/
def finalDomains (filtered white : Finset Line) : List Line :=
  (filtered \ white).sort (· ≤ ·)

/-- The set-level part of `App.convert_to_domain_list`
(src/utils.py:108-135), taking the two deduplicated domain sets
produced by the per-line loops: `remove_subdomains` runs on the block
set only, then the allow set is subtracted and the result sorted. -/
def convertToDomainList (blockDomains whiteDomains : Finset Line) : List Line :=
  finalDomains (removeSubdomains blockDomains) whiteDomains

/-- C5: the final combined list is the ascending lexicographic sort
of (reduced block set minus allow set): duplicate-free, sorted
ascending, excluding every allowed domain, and containing exactly the
reduced-block domains that are not allowed. -/
theorem finalDomains_spec (filtered white : Finset Line) :
    (finalDomains filtered white).Nodup ∧
    List.Sorted (· ≤ ·) (finalDomains filtered white) ∧
    (∀ w ∈ white, w ∉ finalDomains filtered white) ∧
    (∀ d, d ∈ finalDomains filtered white ↔ d ∈ filtered ∧ d ∉ white) := by
  refine ⟨Finset.sort_nodup _ _, Finset.sort_sorted _ _, ?_, ?_⟩
  · intro w hw hmem
    rw [finalDomains, Finset.mem_sort, Finset.mem_sdiff] at hmem
    exact hmem.2 hw
  · intro d
    rw [finalDomains, Finset.mem_sort, Finset.mem_sdiff]

/-- C10: allow-list subtraction removes only exact string matches: a
domain that survives the reducer and is not itself in the allow set
stays in the final list, even when one of its strict ancestors is
allowed — allowing a domain never exempts its subdomains. -/
theorem allowSubtraction_exact_match (blockDomains whiteDomains : Finset Line)
    (d w : Line) (hd : d ∈ removeSubdomains blockDomains)
    (hdw : d ∉ whiteDomains) (hw : w ∈ whiteDomains) (hanc : w ∈ ancestors d) :
    d ∈ convertToDomainList blockDomains whiteDomains := by
  rw [convertToDomainList, finalDomains, Finset.mem_sort, Finset.mem_sdiff]
  exact ⟨hd, hdw⟩

/-- Witness for C10 at a concrete input: `sub.allowed.com` survives
although its ancestor `allowed.com` is allow-listed. -/
theorem allowSubtraction_exact_match_witness :
    "sub.allowed.com".data ∈
      convertToDomainList {"sub.allowed.com".data} {"allowed.com".data} :=
  allowSubtraction_exact_match {"sub.allowed.com".data} {"allowed.com".data}
    "sub.allowed.com".data "allowed.com".data
    (by decide) (by decide) (by decide) (by decide)

/-! ### Properties of `chunkList` -/

lemma chunkList_join {α : Type} (m : Nat) (l : List α) :
    (chunkList l (m + 1)).flatten = l := by
  generalize hk : l.length = k
  induction k using Nat.strong_induction_on generalizing l with
  | _ k ih =>
    cases l with
    | nil => simp [chunkList]
    | cons a t =>
      simp only [chunkList, List.flatten_cons]
      have hlt : ((a :: t).drop (m + 1)).length < k := by
        subst hk
        simp only [List.length_drop, List.length_cons]
        omega
      rw [ih _ hlt _ rfl, List.take_append_drop]

lemma chunkList_length_le {α : Type} (m : Nat) :
    ∀ (l : List α), ∀ c ∈ chunkList l (m + 1), c.length ≤ m + 1 := by
  intro l
  generalize hk : l.length = k
  induction k using Nat.strong_induction_on generalizing l with
  | _ k ih =>
    intro c hc
    cases l with
    | nil => simp [chunkList] at hc
    | cons a t =>
      simp only [chunkList, List.mem_cons] at hc
      rcases hc with rfl | hc
      · simp only [List.length_take]
        omega
      · have hlt : ((a :: t).drop (m + 1)).length < k := by
          subst hk
          simp only [List.length_drop, List.length_cons]
          omega
        exact ih _ hlt _ rfl c hc

lemma chunkList_dropLast_length {α : Type} (m : Nat) :
    ∀ (l : List α), ∀ c ∈ (chunkList l (m + 1)).dropLast, c.length = m + 1 := by
  intro l
  generalize hk : l.length = k
  induction k using Nat.strong_induction_on generalizing l with
  | _ k ih =>
    intro c hc
    cases l with
    | nil => simp [chunkList] at hc
    | cons a t =>
      simp only [chunkList] at hc
      cases hrec : chunkList ((a :: t).drop (m + 1)) (m + 1) with
      | nil => rw [hrec] at hc; simp at hc
      | cons r rs =>
        rw [hrec, List.dropLast_cons₂] at hc
        have hdrop : (a :: t).drop (m + 1) ≠ [] := by
          intro hnil
          rw [hnil] at hrec
          simp [chunkList] at hrec
        have hlen : m + 1 < (a :: t).length := by
          by_contra hle
          exact hdrop (List.drop_eq_nil_of_le (by omega))
        rcases List.mem_cons.mp hc with rfl | hc
        · simp only [List.length_take]
          omega
        · have hlt : ((a :: t).drop (m + 1)).length < k := by
            subst hk
            simp only [List.length_drop, List.length_cons]
            omega
          exact ih _ hlt _ rfl c (by rw [hrec]; exact hc)

/-- C7: for a positive chunk size `n`, `chunk_list` yields contiguous
slices in input order whose concatenation is exactly the input, every
slice has length at most `n`, and every slice except possibly the
last has length exactly `n`. -/
theorem chunkList_spec {α : Type} (l : List α) (n : Nat) (hn : 0 < n) :
    (chunkList l n).flatten = l ∧
    (∀ c ∈ chunkList l n, c.length ≤ n) ∧
    (∀ c ∈ (chunkList l n).dropLast, c.length = n) := by
  obtain ⟨m, rfl⟩ : ∃ m, n = m + 1 := ⟨n - 1, by omega⟩
  exact ⟨chunkList_join m l, fun c hc => chunkList_length_le m l c hc,
    fun c hc => chunkList_dropLast_length m l c hc⟩

/-- Witness for C7 at a concrete input: `[1,2,3,4,5]` in chunks of
two. -/
theorem chunkList_spec_witness :
    (chunkList [1, 2, 3, 4, 5] 2).flatten = [1, 2, 3, 4, 5] ∧
    (∀ c ∈ chunkList [1, 2, 3, 4, 5] 2, c.length ≤ 2) ∧
    (∀ c ∈ (chunkList [1, 2, 3, 4, 5] 2).dropLast, c.length = 2) :=
  chunkList_spec [1, 2, 3, 4, 5] 2 (by decide)

/-! ### The Normalizer: `convert_domains` -/

/-- The whitespace stripped by Python's `str.strip()` (its ASCII
cases). -/
def isPySpace (c : Char) : Bool :=
  c = ' ' || c = '\t' || c = '\n' || c = '\r' || c = '\x0b' || c = '\x0c'

/-- Python `str.lower()`: character-wise lowercasing. -/
def pyLower (s : Line) : Line :=
  s.map Char.toLower

/-- Python `str.strip()`: drop whitespace from both ends. -/
def pyStrip (s : Line) : Line :=
  ((s.dropWhile isPySpace).reverse.dropWhile isPySpace).reverse

/-- Python `s.split(c)[0]`: the prefix before the first occurrence of
`c`. -/
def takeBefore (c : Char) (s : Line) : Line :=
  s.takeWhile (fun x => x != c)

/-- Python `s.replace("\r", "")`. -/
def removeCR (s : Line) : Line :=
  s.filter (fun x => x != '\r')

/-- Modelled from the spec: the module-level `replace_pattern` of
`src/__init__.py`, which is not under `src/` — spec §4.1 step 3, the
"known non-domain prefix/decoration pattern" stripped exactly once in
a single substitution pass: a leading hosts-file address token
(digits, dots, colons) followed by whitespace, or a leading adblock
`||` wrapper. -/
def replacePatternSub (s : Line) : Line :=
  let tok := s.takeWhile (fun c => c.isDigit || c = '.' || c = ':')
  let rest := s.drop tok.length
  if tok ≠ [] ∧ rest ≠ [] ∧ isPySpace (rest.headD ' ') = true then
    rest.dropWhile isPySpace
  else if s.take 2 = ['|', '|'] then s.drop 2
  else s

/-- Modelled from the spec: §4.1 step 4, Python's IDNA codec
(`str.encode("idna")`), not part of the repository: an
internationalized-domain-safe ASCII encoding whose failures are
mapped to rejection.  On text that is already ASCII it is the
identity; non-ASCII text is modelled as failing. -/
def isASCIIChar (c : Char) : Bool :=
  c.toNat ≤ 127

def idnaEncode (s : Line) : Option Line :=
  if s.all isASCIIChar then some s else none

/-- Modelled from the spec: one label of the domain grammar of §3 —
nonempty, alphanumeric or hyphen, no leading or trailing hyphen. -/
def validLabel (l : Line) : Bool :=
  !l.isEmpty && l.all (fun c => c.isAlphanum || c = '-') &&
    (l.headD '-').isAlphanum && (l.getLastD '-').isAlphanum

/-- Modelled from the spec: the module-level `domain_pattern` of
`src/__init__.py`, which is not under `src/` — the domain grammar of
spec §3: labels separated by `.`, every label valid. -/
def domainPatternMatch (s : Line) : Bool :=
  (splitDots s).all validLabel

/-- Modelled from the spec: the module-level `ip_pattern` of
`src/__init__.py`, which is not under `src/` — spec §4.1 step 5: an
IPv4 literal (four dot-separated groups of one to three digits) or an
IPv6 literal (recognised by its colons). -/
def ipPatternMatch (s : Line) : Bool :=
  ((splitDots s).length = 4 &&
    (splitDots s).all (fun g => !g.isEmpty && g.length ≤ 3 && g.all Char.isDigit)) ||
  s.contains ':'

/-- `App.convert_domains` (src/utils.py:137-150): reject comment-like
or empty lines; lowercase, strip, cut at the first `#` and `^`, drop
carriage returns; strip the decoration pattern once; IDNA-encode
(rejecting on failure); accept exactly the results that match the
domain grammar and are not IP literals. -/
def convertDomains (line : Line) : Option Line :=
  if ['#'].isPrefixOf line || ['!'].isPrefixOf line || ['/'].isPrefixOf line
      || line = [] then
    none
  else
    let linex := removeCR (takeBefore '^' (takeBefore '#' (pyStrip (pyLower line))))
    match idnaEncode (replacePatternSub linex) with
    | none => none
    | some d => if domainPatternMatch d && !ipPatternMatch d then some d else none

/-- C8: every line that is empty or begins with `#`, `!` or `/` is
rejected by the normalizer. -/
theorem convertDomains_rejects (line : Line)
    (h : line = [] ∨ ['#'].isPrefixOf line ∨ ['!'].isPrefixOf line
      ∨ ['/'].isPrefixOf line) :
    convertDomains line = none := by
  rcases h with h | h | h | h <;> simp [convertDomains, h]

/-- Witness for C8 at a concrete input: a `#` comment line. -/
theorem convertDomains_rejects_witness :
    convertDomains "#comment".data = none :=
  convertDomains_rejects "#comment".data (Or.inr (Or.inl (by decide)))

/-! ### Idempotence of the normalizer on canonical domains -/

/-- The characters a canonical (lowercased) domain may contain:
lowercase letters, digits, hyphen, dot. -/
def goodChar (c : Char) : Bool :=
  c.isLower || c.isDigit || c = '-' || c = '.'

lemma goodChar_toNat {c : Char} (h : goodChar c = true) :
    (97 ≤ c.toNat ∧ c.toNat ≤ 122) ∨ (48 ≤ c.toNat ∧ c.toNat ≤ 57) ∨
      c.toNat = 45 ∨ c.toNat = 46 := by
  simp only [goodChar, Bool.or_eq_true, decide_eq_true_eq] at h
  rcases h with ((h | h) | rfl) | rfl
  · simp only [Char.isLower, Bool.and_eq_true, decide_eq_true_eq] at h
    obtain ⟨h1, h2⟩ := h
    rw [ge_iff_le, UInt32.le_def, BitVec.le_def] at h1
    rw [UInt32.le_def, BitVec.le_def] at h2
    exact Or.inl ⟨h1, h2⟩
  · simp only [Char.isDigit, Bool.and_eq_true, decide_eq_true_eq] at h
    obtain ⟨h1, h2⟩ := h
    rw [ge_iff_le, UInt32.le_def, BitVec.le_def] at h1
    rw [UInt32.le_def, BitVec.le_def] at h2
    exact Or.inr (Or.inl ⟨h1, h2⟩)
  · exact Or.inr (Or.inr (Or.inl rfl))
  · exact Or.inr (Or.inr (Or.inr rfl))

lemma goodChar_ne_char {c : Char} (h : goodChar c = true) (d : Char)
    (hd : d.toNat < 45 ∨ d.toNat = 47 ∨ (57 < d.toNat ∧ d.toNat < 97) ∨
      122 < d.toNat) : c ≠ d := by
  intro he
  subst he
  have hn := goodChar_toNat h
  rcases hn with ⟨a1, a2⟩ | ⟨a1, a2⟩ | a1 | a1 <;>
    rcases hd with b1 | b1 | ⟨b1, b2⟩ | b1 <;> omega

lemma isPySpace_false_of_goodChar {c : Char} (h : goodChar c = true) :
    isPySpace c = false := by
  have hn := goodChar_toNat h
  simp only [isPySpace, Bool.or_eq_false_iff, decide_eq_false_iff_not]
  refine ⟨⟨⟨⟨⟨?_, ?_⟩, ?_⟩, ?_⟩, ?_⟩, ?_⟩ <;>
    exact goodChar_ne_char h _ (by decide)

lemma toLower_eq_self_of_goodChar {c : Char} (h : goodChar c = true) :
    c.toLower = c := by
  have hn := goodChar_toNat h
  unfold Char.toLower
  rw [if_neg]
  rcases hn with ⟨a1, a2⟩ | ⟨a1, a2⟩ | a1 | a1 <;> omega

lemma isASCIIChar_of_goodChar {c : Char} (h : goodChar c = true) :
    isASCIIChar c = true := by
  have hn := goodChar_toNat h
  simp only [isASCIIChar, decide_eq_true_eq]
  rcases hn with ⟨a1, a2⟩ | ⟨a1, a2⟩ | a1 | a1 <;> omega

lemma goodChar_of_labelChar {c : Char} (h : (c.isAlphanum || c = '-') = true)
    (hu : c.isUpper = false) : goodChar c = true := by
  simp only [Bool.or_eq_true, decide_eq_true_eq] at h
  simp only [goodChar, Bool.or_eq_true, decide_eq_true_eq]
  rcases h with h | rfl
  · simp only [Char.isAlphanum, Char.isAlpha, Bool.or_eq_true] at h
    rcases h with (h | h) | h
    · rw [hu] at h
      exact absurd h (by simp)
    · exact Or.inl (Or.inl (Or.inl h))
    · exact Or.inl (Or.inl (Or.inr h))
  · exact Or.inl (Or.inr rfl)

lemma eq_sep_or_mem_splitOnChar {sep : Char} {s : Line} {c : Char} (hc : c ∈ s) :
    c = sep ∨ ∃ l ∈ splitOnChar sep s, c ∈ l := by
  induction s with
  | nil => simp at hc
  | cons a cs ih =>
    by_cases ha : a = sep
    · rcases List.mem_cons.mp hc with rfl | hc
      · exact Or.inl ha
      · rcases ih hc with h | ⟨l, hl, hcl⟩
        · exact Or.inl h
        · refine Or.inr ⟨l, ?_, hcl⟩
          simp only [splitOnChar, if_pos ha]
          exact List.mem_cons_of_mem _ hl
    · cases hrec : splitOnChar sep cs with
      | nil => exact absurd hrec (splitOnChar_ne_nil sep cs)
      | cons r rs =>
        have hres : splitOnChar sep (a :: cs) = (a :: r) :: rs := by
          simp only [splitOnChar, if_neg ha, hrec, consHead]
        rcases List.mem_cons.mp hc with rfl | hc
        · exact Or.inr ⟨c :: r, by rw [hres]; exact List.mem_cons_self _ _,
            List.mem_cons_self _ _⟩
        · rcases ih hc with h | ⟨l, hl, hcl⟩
          · exact Or.inl h
          · rw [hrec] at hl
            rcases List.mem_cons.mp hl with rfl | hl
            · exact Or.inr ⟨a :: l, by rw [hres]; exact List.mem_cons_self _ _,
                List.mem_cons_of_mem _ hcl⟩
            · exact Or.inr ⟨l, by rw [hres]; exact List.mem_cons_of_mem _ hl, hcl⟩

lemma goodChar_of_canonical {s : Line} (hdom : domainPatternMatch s = true)
    (hup : ∀ c ∈ s, c.isUpper = false) : ∀ c ∈ s, goodChar c = true := by
  intro c hc
  rcases @eq_sep_or_mem_splitOnChar '.' s c hc with rfl | ⟨l, hl, hcl⟩
  · decide
  · have hlab := List.all_eq_true.mp hdom l hl
    simp only [validLabel, Bool.and_eq_true] at hlab
    exact goodChar_of_labelChar (List.all_eq_true.mp hlab.1.1.2 c hcl) (hup c hc)

lemma dropWhile_eq_self_of {p : Char → Bool} {s : Line}
    (h : ∀ c ∈ s, p c = false) : s.dropWhile p = s := by
  cases s with
  | nil => rfl
  | cons a t => simp [List.dropWhile_cons, h a (List.mem_cons_self _ _)]

lemma takeWhile_eq_self_of {p : Char → Bool} {s : Line}
    (h : ∀ c ∈ s, p c = true) : s.takeWhile p = s := by
  induction s with
  | nil => rfl
  | cons a t ih =>
    simp [List.takeWhile_cons, h a (List.mem_cons_self _ _),
      ih fun c hc => h c (List.mem_cons_of_mem _ hc)]

lemma pyLower_eq_self {s : Line} (h : ∀ c ∈ s, goodChar c = true) :
    pyLower s = s := by
  induction s with
  | nil => rfl
  | cons a t ih =>
    have ht := ih fun c hc => h c (List.mem_cons_of_mem _ hc)
    simp only [pyLower, List.map_cons] at ht ⊢
    rw [toLower_eq_self_of_goodChar (h a (List.mem_cons_self _ _)), ht]

lemma pyStrip_eq_self {s : Line} (h : ∀ c ∈ s, isPySpace c = false) :
    pyStrip s = s := by
  unfold pyStrip
  rw [dropWhile_eq_self_of h,
    dropWhile_eq_self_of fun c hc => h c (List.mem_reverse.mp hc),
    List.reverse_reverse]

lemma takeBefore_eq_self {c : Char} {s : Line} (h : ∀ x ∈ s, x ≠ c) :
    takeBefore c s = s :=
  takeWhile_eq_self_of fun x hx => by simp [h x hx]

lemma removeCR_eq_self {s : Line} (h : ∀ x ∈ s, x ≠ '\r') :
    removeCR s = s := by
  unfold removeCR
  refine List.filter_eq_self.mpr fun a ha => ?_
  simp [h a ha]

lemma replacePatternSub_eq_self {s : Line} (h : ∀ c ∈ s, goodChar c = true) :
    replacePatternSub s = s := by
  simp only [replacePatternSub]
  rw [if_neg, if_neg]
  · intro h2
    have hmem : '|' ∈ s := List.take_subset 2 s (by rw [h2]; exact List.mem_cons_self _ _)
    exact goodChar_ne_char (h '|' hmem) '|' (by decide) rfl
  · rintro ⟨h1, h2, h3⟩
    cases hrest : s.drop (s.takeWhile fun c => c.isDigit || c = '.' || c = ':').length with
    | nil => rw [hrest] at h2; exact h2 rfl
    | cons x xs =>
      have hx : x ∈ s := List.drop_subset _ s (by rw [hrest]; exact List.mem_cons_self _ _)
      rw [hrest] at h3
      simp only [List.headD_cons] at h3
      rw [isPySpace_false_of_goodChar (h x hx)] at h3
      exact absurd h3 (by simp)

lemma idnaEncode_eq_some {s : Line} (h : ∀ c ∈ s, goodChar c = true) :
    idnaEncode s = some s := by
  unfold idnaEncode
  rw [if_pos]
  exact List.all_eq_true.mpr fun c hc => isASCIIChar_of_goodChar (h c hc)

lemma singleton_isPrefixOf {c a : Char} {t : Line} :
    [c].isPrefixOf (a :: t) = (c == a) := by
  simp [List.isPrefixOf]

/-- A canonical domain in the sense of the spec: lowercase (no upper
case character), matching the domain grammar (hence ASCII), and not
an IP literal. -/
def isCanonicalDomain (s : Line) : Bool :=
  domainPatternMatch s && !ipPatternMatch s && s.all (fun c => !c.isUpper)

/-- C9: the normalizer is the identity on canonical domains: on a
lowercase IDNA-ASCII string matching the domain grammar that is not
an IP literal, `convert_domains` returns its input unchanged. -/
theorem convertDomains_canonical_id (s : Line) (h : isCanonicalDomain s = true) :
    convertDomains s = some s := by
  simp only [isCanonicalDomain, Bool.and_eq_true, Bool.not_eq_true'] at h
  obtain ⟨⟨hdom, hip⟩, hup⟩ := h
  have hupf : ∀ c ∈ s, c.isUpper = false := by
    intro c hc
    have := List.all_eq_true.mp hup c hc
    simpa using this
  have hgood := goodChar_of_canonical hdom hupf
  cases s with
  | nil => exact absurd hdom (by decide)
  | cons a t =>
    have hga := hgood a (List.mem_cons_self _ _)
    have g1 : ['#'].isPrefixOf (a :: t) = false := by
      rw [singleton_isPrefixOf]
      simp only [beq_eq_false_iff_ne, ne_eq]
      exact fun he => goodChar_ne_char hga '#' (by decide) he.symm
    have g2 : ['!'].isPrefixOf (a :: t) = false := by
      rw [singleton_isPrefixOf]
      simp only [beq_eq_false_iff_ne, ne_eq]
      exact fun he => goodChar_ne_char hga '!' (by decide) he.symm
    have g3 : ['/'].isPrefixOf (a :: t) = false := by
      rw [singleton_isPrefixOf]
      simp only [beq_eq_false_iff_ne, ne_eq]
      exact fun he => goodChar_ne_char hga '/' (by decide) he.symm
    have e1 : pyLower (a :: t) = a :: t := pyLower_eq_self hgood
    have e2 : pyStrip (a :: t) = a :: t :=
      pyStrip_eq_self fun c hc => isPySpace_false_of_goodChar (hgood c hc)
    have e3 : takeBefore '#' (a :: t) = a :: t :=
      takeBefore_eq_self fun x hx => goodChar_ne_char (hgood x hx) '#' (by decide)
    have e4 : takeBefore '^' (a :: t) = a :: t :=
      takeBefore_eq_self fun x hx => goodChar_ne_char (hgood x hx) '^' (by decide)
    have e5 : removeCR (a :: t) = a :: t :=
      removeCR_eq_self fun x hx => goodChar_ne_char (hgood x hx) '\r' (by decide)
    have e6 : replacePatternSub (a :: t) = a :: t := replacePatternSub_eq_self hgood
    have e7 : idnaEncode (a :: t) = some (a :: t) := idnaEncode_eq_some hgood
    simp only [convertDomains, g1, g2, g3, Bool.false_or, e1, e2, e3, e4, e5, e6, e7,
      hdom, hip]
    simp

/-- Witness for C9 at a concrete input: the canonical domain
`example.com` comes back unchanged. -/
theorem convertDomains_canonical_id_witness :
    convertDomains "example.com".data = some "example.com".data :=
  convertDomains_canonical_id "example.com".data (by decide)

/-! ### The remote store and the reconciliation logic of `App.run` -/

/-- Modelled from the spec (§6): a remote list record — store-assigned
identifier, name, item count (`{id, name, count}`). -/
structure CFList where
  id : Nat
  name : String
  count : Nat
deriving DecidableEq

/-- Modelled from the spec (§6): a remote gateway-policy record
(`{id, name, ...}`; the engine reads only identifier and name). -/
structure CFPolicy where
  id : Nat
  name : String
deriving DecidableEq

/-- Modelled from the spec (§6): the durable state of the remote
store — its lists and policies, plus a supply of fresh identifiers. -/
structure RemoteState where
  lists : List CFList
  policies : List CFPolicy
  nextId : Nat
deriving DecidableEq

/-- Python `str.startswith`, the namespace matching convention of the
store wrappers (spec §6, §9). -/
def strStarts (p s : String) : Bool :=
  p.data.isPrefixOf s.data

/-- `f"{self.name_prefix} Block Ads"` (src/utils.py:60), the policy
name of the namespace. -/
def policyName (pfx : String) : String :=
  pfx ++ " Block Ads"

/-- `f"{self.name_prefix} {i + 1}"` (src/utils.py:74), the name of
the `i`-th created list (0-based `i`). -/
def listName (pfx : String) (i : Nat) : String :=
  pfx ++ " " ++ toString (i + 1)

/-- Modelled from the spec: `getLists(namespacePrefix)` returns the
namespace's list records. -/
def getLists (pfx : String) (st : RemoteState) : List CFList :=
  st.lists.filter (fun l => strStarts pfx l.name)

/-- Modelled from the spec: `getPolicies(namespacePrefix)` returns
the namespace's policy records. -/
def getPolicies (pfx : String) (st : RemoteState) : List CFPolicy :=
  st.policies.filter (fun p => strStarts pfx p.name)

/-- Modelled from the spec: `deletePolicy(namePrefix)` deletes every
policy whose name matches the given policy name. -/
def deletePoliciesState (name : String) (st : RemoteState) : RemoteState :=
  { st with policies := st.policies.filter (fun p => !strStarts name p.name) }

/-- Modelled from the spec: the state after `deleteList` has been
issued for each of the given records. -/
def deleteListsState (ls : List CFList) (st : RemoteState) : RemoteState :=
  { st with lists := st.lists.filter (fun l => !(ls.map (fun x => x.id)).contains l.id) }

/-- Modelled from the spec: the records returned by the concurrent
`createList` calls of the rebuild path, one per chunk, with fresh
identifiers and the 1-based names of src/utils.py:74. -/
def createdLists (pfx : String) (chunks : List (List Line)) (st : RemoteState) :
    List CFList :=
  chunks.enum.map (fun p => ⟨st.nextId + p.1, listName pfx p.1, p.2.length⟩)

/-- One remote mutation request issued by `App.run`. -/
inductive RunAction where
  | deletePolicies (name : String)
  | deleteList (name : String) (id : Nat)
  | createList (name : String) (domains : List Line)
  | createPolicy (name : String) (listIds : List Nat)
  | updatePolicy (name : String) (id : Nat) (listIds : List Nat)
deriving DecidableEq

/-- Does the action create or update a gateway policy? -/
def RunAction.isPolicyWrite : RunAction → Bool
  | .createPolicy _ _ => true
  | .updatePolicy _ _ _ => true
  | _ => false

/-- How a run of `App.run` terminates. -/
inductive Outcome where
  | abortEmpty
  | abortTooLarge
  | createdPolicyOnly
  | skippedPolicyExists
  | rebuiltCreatedPolicy
  | rebuiltUpdatedPolicy
  | errMultiplePolicies
deriving DecidableEq

/-- The reconciliation logic of `App.run` (src/utils.py:26-100) after
the final domain list has been computed: the outcome of the run and
the sequence of remote mutation requests it issues, store reads being
answered by the modelled remote state.  The fatal
more-than-one-policy branch (src/utils.py:89-91) is the
`errMultiplePolicies` outcome. -/
def appRun (pfx : String) (domains : List Line) (st : RemoteState) :
    Outcome × List RunAction :=
  if domains.length = 0 then (Outcome.abortEmpty, [])
  else if 300000 < domains.length then (Outcome.abortTooLarge, [])
  else
    let cfLists := getLists pfx st
    if domains.length = (cfLists.map (fun l => l.count)).sum then
      if (getPolicies pfx st).length = 0 then
        (Outcome.createdPolicyOnly,
          [RunAction.createPolicy (policyName pfx) (cfLists.map (fun l => l.id))])
      else (Outcome.skippedPolicyExists, [])
    else
      let st1 := deletePoliciesState (policyName pfx) st
      let st2 := deleteListsState cfLists st1
      let chunks := chunkList domains 1000
      let newLists := createdLists pfx chunks st2
      let st3 : RemoteState :=
        { st2 with lists := st2.lists ++ newLists, nextId := st2.nextId + chunks.length }
      let baseActs := RunAction.deletePolicies (policyName pfx) ::
        (cfLists.map (fun l => RunAction.deleteList l.name l.id) ++
          chunks.enum.map (fun p => RunAction.createList (listName pfx p.1) p.2))
      match getPolicies pfx st3 with
      | [] =>
        (Outcome.rebuiltCreatedPolicy,
          baseActs ++ [RunAction.createPolicy (policyName pfx) (newLists.map (fun l => l.id))])
      | [p] =>
        (Outcome.rebuiltUpdatedPolicy,
          baseActs ++ [RunAction.updatePolicy (policyName pfx) p.id (newLists.map (fun l => l.id))])
      | _ => (Outcome.errMultiplePolicies, baseActs)

lemma getPolicies_update_irrel (pfx : String) (st : RemoteState) (L : List CFList)
    (n : Nat) :
    getPolicies pfx { st with lists := L, nextId := n } = getPolicies pfx st :=
  rfl

lemma getPolicies_deleteListsState (pfx : String) (ls : List CFList) (st : RemoteState) :
    getPolicies pfx (deleteListsState ls st) = getPolicies pfx st :=
  rfl

/-- C4: when the computed final list is empty or exceeds the 300000
ceiling, the run warns and exits without issuing any remote store
mutation. -/
theorem appRun_size_guard (pfx : String) (domains : List Line) (st : RemoteState)
    (h : domains.length = 0 ∨ 300000 < domains.length) :
    ((appRun pfx domains st).1 = Outcome.abortEmpty ∨
      (appRun pfx domains st).1 = Outcome.abortTooLarge) ∧
    (appRun pfx domains st).2 = [] := by
  rcases h with h | h
  · simp [appRun, h]
  · have h0 : ¬domains.length = 0 := by omega
    simp [appRun, h0, h]

/-- Witness for C4 at a concrete input: the empty final list. -/
theorem appRun_size_guard_witness :
    ((appRun "[AdBlock-a]" [] ⟨[], [], 0⟩).1 = Outcome.abortEmpty ∨
      (appRun "[AdBlock-a]" [] ⟨[], [], 0⟩).1 = Outcome.abortTooLarge) ∧
    (appRun "[AdBlock-a]" [] ⟨[], [], 0⟩).2 = [] :=
  appRun_size_guard "[AdBlock-a]" [] ⟨[], [], 0⟩ (Or.inl (by decide))

/-- C6: counterexample to the claim as stated.  With an empty
computed final list, remote lists summing to `0 = len(final)` and no
policy for the namespace, the run exits through the empty-list guard:
no gateway policy is created. -/
theorem createPolicyOnly_empty_cex :
    (([] : List Line).length =
      ((getLists "[AdBlock-a]" ⟨[], [], 0⟩).map (fun l => l.count)).sum) ∧
    (getPolicies "[AdBlock-a]" ⟨[], [], 0⟩).length = 0 ∧
    appRun "[AdBlock-a]" [] ⟨[], [], 0⟩ = (Outcome.abortEmpty, []) := by
  refine ⟨by decide, by decide, by simp [appRun]⟩

/-- C6 (amended): when the run passes the size guards (final list
nonempty and within the 300000 ceiling), the remote lists' counts sum
to exactly the final size and no policy exists for the namespace, the
run issues exactly one mutation — creating the gateway policy that
references the existing lists' identifiers — and terminates, with no
list deletion and no list creation. -/
theorem appRun_createPolicyOnly (pfx : String) (domains : List Line) (st : RemoteState)
    (h0 : domains.length ≠ 0) (h1 : domains.length ≤ 300000)
    (hsum : domains.length = ((getLists pfx st).map (fun l => l.count)).sum)
    (hpol : (getPolicies pfx st).length = 0) :
    appRun pfx domains st =
      (Outcome.createdPolicyOnly,
        [RunAction.createPolicy (policyName pfx)
          ((getLists pfx st).map (fun l => l.id))]) := by
  have h2 : ¬300000 < domains.length := by omega
  simp only [appRun]
  rw [if_neg h0, if_neg h2, if_pos hsum, if_pos hpol]

/-- Witness for the amended C6 at a concrete input: one remote list
of count 1, no policies, a one-domain final list. -/
theorem appRun_createPolicyOnly_witness :
    appRun "[AdBlock-a]" ["a.b".data] ⟨[⟨1, "[AdBlock-a] 1", 1⟩], [], 0⟩ =
      (Outcome.createdPolicyOnly,
        [RunAction.createPolicy (policyName "[AdBlock-a]")
          ((getLists "[AdBlock-a]" ⟨[⟨1, "[AdBlock-a] 1", 1⟩], [], 0⟩).map
            (fun l => l.id))]) :=
  appRun_createPolicyOnly "[AdBlock-a]" ["a.b".data] ⟨[⟨1, "[AdBlock-a] 1", 1⟩], [], 0⟩
    (by decide) (by decide) (by decide) (by decide)

/-- C2: counterexample to the claim as stated.  With two policies in
the namespace and remote lists summing to exactly the final size, the
run exits silently through the policy-already-exists branch: no fatal
multiple-policies error is signalled and nothing is mutated, contrary
to the claimed unconditional fatal signal. -/
theorem multiplePolicies_no_error_cex :
    1 < (getPolicies "[AdBlock-a]"
      ⟨[⟨1, "[AdBlock-a] 1", 1⟩],
        [⟨1, "[AdBlock-a] P1"⟩, ⟨2, "[AdBlock-a] P2"⟩], 0⟩).length ∧
    appRun "[AdBlock-a]" ["x.y".data]
      ⟨[⟨1, "[AdBlock-a] 1", 1⟩],
        [⟨1, "[AdBlock-a] P1"⟩, ⟨2, "[AdBlock-a] P2"⟩], 0⟩ =
      (Outcome.skippedPolicyExists, []) := by
  refine ⟨by decide, ?_⟩
  simp only [appRun]
  rw [if_neg (by decide), if_neg (by decide), if_pos (by decide), if_neg (by decide)]

/-- C2 (amended): the fatal multiple-policies error is signalled only
on the rebuild path, when more than one namespace policy remains
after the policy-deletion step; at that point the policy deletion,
the list deletions and the chunked list creations have already been
issued, and the run performs no policy creation or update after the
error. -/
theorem appRun_multiplePolicies_after_mutations (pfx : String) (domains : List Line)
    (st : RemoteState) (h0 : domains.length ≠ 0) (h1 : domains.length ≤ 300000)
    (hsum : domains.length ≠ ((getLists pfx st).map (fun l => l.count)).sum)
    (hsurv : 2 ≤ (getPolicies pfx (deletePoliciesState (policyName pfx) st)).length) :
    (appRun pfx domains st).1 = Outcome.errMultiplePolicies ∧
    (appRun pfx domains st).2 =
      RunAction.deletePolicies (policyName pfx) ::
        ((getLists pfx st).map (fun l => RunAction.deleteList l.name l.id) ++
          (chunkList domains 1000).enum.map
            (fun p => RunAction.createList (listName pfx p.1) p.2)) ∧
    ∀ a ∈ (appRun pfx domains st).2, a.isPolicyWrite = false := by
  have h2 : ¬300000 < domains.length := by omega
  have hrun : appRun pfx domains st =
      (Outcome.errMultiplePolicies,
        RunAction.deletePolicies (policyName pfx) ::
          ((getLists pfx st).map (fun l => RunAction.deleteList l.name l.id) ++
            (chunkList domains 1000).enum.map
              (fun p => RunAction.createList (listName pfx p.1) p.2))) := by
    simp only [appRun]
    rw [if_neg h0, if_neg h2, if_neg hsum]
    rw [getPolicies_update_irrel, getPolicies_deleteListsState]
    cases hP : getPolicies pfx (deletePoliciesState (policyName pfx) st) with
    | nil => rw [hP] at hsurv; simp at hsurv
    | cons p ps =>
      cases ps with
      | nil => rw [hP] at hsurv; simp at hsurv
      | cons q rest => rfl
  refine ⟨by rw [hrun], by rw [hrun], ?_⟩
  rw [hrun]
  intro a ha
  simp only [List.mem_cons, List.mem_append, List.mem_map] at ha
  rcases ha with rfl | ⟨l, _, rfl⟩ | ⟨p, _, rfl⟩ <;> rfl

/-- Witness for the amended C2 at a concrete input: two policies of
the namespace that do not match the policy name survive the deletion
step; sizes differ, so the run rebuilds and then signals the fatal
error. -/
theorem appRun_multiplePolicies_after_mutations_witness :
    (appRun "[AdBlock-a]" ["x.y".data]
        ⟨[], [⟨1, "[AdBlock-a] P1"⟩, ⟨2, "[AdBlock-a] P2"⟩], 0⟩).1 =
      Outcome.errMultiplePolicies ∧
    (appRun "[AdBlock-a]" ["x.y".data]
        ⟨[], [⟨1, "[AdBlock-a] P1"⟩, ⟨2, "[AdBlock-a] P2"⟩], 0⟩).2 =
      RunAction.deletePolicies (policyName "[AdBlock-a]") ::
        ((getLists "[AdBlock-a]"
            ⟨[], [⟨1, "[AdBlock-a] P1"⟩, ⟨2, "[AdBlock-a] P2"⟩], 0⟩).map
          (fun l => RunAction.deleteList l.name l.id) ++
          (chunkList ["x.y".data] 1000).enum.map
            (fun p => RunAction.createList (listName "[AdBlock-a]" p.1) p.2)) ∧
    ∀ a ∈ (appRun "[AdBlock-a]" ["x.y".data]
        ⟨[], [⟨1, "[AdBlock-a] P1"⟩, ⟨2, "[AdBlock-a] P2"⟩], 0⟩).2,
      a.isPolicyWrite = false :=
  appRun_multiplePolicies_after_mutations "[AdBlock-a]" ["x.y".data]
    ⟨[], [⟨1, "[AdBlock-a] P1"⟩, ⟨2, "[AdBlock-a] P2"⟩], 0⟩
    (by decide) (by decide) (by decide) (by decide)
